import Mathlib

/-!
Shallow embedding of the bounded web-crawl engine of
src/server/python-agent/tasks/web_scrape.py (function execute), together
with theorems settling the specification claims about it.

Modelling conventions:
* Machine-level HTTP / HTML behaviour is abstracted by an oracle
  fetch : String → FetchOutcome.  A successful fetch-and-parse yields a Doc;
  Doc.select models the composite soup.select + get_text().strip() pipeline
  (returning none when the selector raises, e.g. a malformed CSS selector,
  which in the Python code is not a requests.exceptions.RequestException and
  therefore escapes the crawl loop); Doc.hrefs models the href attributes of
  the anchor elements, in document order.
* requests.get / raise_for_status failures (transport error, non-2xx,
  timeout) are all requests.exceptions.RequestException and are modelled by
  FetchOutcome.requestError.
* Python's int is modelled by Int where the source allows negative values
  (depth, max_pages); loop-internal depths start at 0 and only grow, so
  frontier depths are Nat.
* The visited set is modelled as a List String used only through membership;
  results['execution_time'] and the constant success flag are not modelled
  (no claim mentions them).
-/

/-- Result of urllib.parse.urlparse restricted to the two fields the source
reads: scheme and netloc.  -/
structure ParsedURL where
  scheme : String
  netloc : String
deriving DecidableEq

/-- Models str.startswith as a character-level prefix test. -/
def strStartsWith (s p : String) : Bool := p.data.isPrefixOf s.data

/-- The characters before the first '/' (used to carve the netloc out of
what follows "://"). -/
def hostPart : List Char → List Char
  | [] => []
  | c :: cs => if c = '/' then [] else c :: hostPart cs

/-- Split a character list at the first occurrence of "://": some (before,
after), or none when "://" does not occur. -/
def splitScheme : List Char → Option (List Char × List Char)
  | [] => none
  | c :: cs =>
    if [':', '/', '/'].isPrefixOf (c :: cs) then some ([], cs.drop 2)
    else
      match splitScheme cs with
      | none => none
      | some (pre, post) => some (c :: pre, post)

/-- Model of urllib.parse.urlparse for the two fields used by the source:
for a URL of the shape scheme://host/path it returns the scheme and the
host; a string without "://" yields empty scheme and netloc (such inputs
fail the source's validation, exactly as they do in Python, where they
have an empty scheme or an empty netloc). -/
def urlparse (s : String) : ParsedURL :=
  match splitScheme s.data with
  | none => ⟨"", ""⟩
  | some (pre, post) => ⟨⟨pre⟩, ⟨hostPart post⟩⟩

/-- A successfully fetched and parsed page.  select models
soup.select(selector) followed by get_text().strip() on each element
(none = the selector raises, as soupsieve does on malformed selectors);
hrefs models the href attributes of soup.find_all('a', href=True). -/
structure Doc where
  select : String → Option (List String)
  hrefs : List String

/-- Outcome of requests.get + raise_for_status + BeautifulSoup for one URL. -/
inductive FetchOutcome where
  | ok : Doc → FetchOutcome
  | requestError : FetchOutcome

/-- Lines 100-106 of the source: href resolution.  parsed is the urlparse
of the request's seed URL (the source computes parsed_url once, from
params['url'], before the loop). -/
def resolveHref (parsed : ParsedURL) (href : String) : String :=
  if strStartsWith href "http://" || strStartsWith href "https://" then href
  else
    if strStartsWith href "/" then
      parsed.scheme ++ "://" ++ parsed.netloc ++ href
    else
      parsed.scheme ++ "://" ++ parsed.netloc ++ "/" ++ href

/-- Lines 87-89 of the source: build page_data['extracted'] by applying each
selector in order; none models the first selector application raising (the
exception then escapes the per-page try/except, which only catches
RequestException). -/
def extractAll (doc : Doc) : List (String × String) → Option (List (String × List String))
  | [] => some []
  | (k, sel) :: rest =>
    match doc.select sel with
    | none => none
    | some texts =>
      match extractAll doc rest with
      | none => none
      | some r => some ((k, texts) :: r)

/-- The resolved outbound links of a URL (empty when the fetch fails). -/
def pageLinks (fetch : String → FetchOutcome) (parsed : ParsedURL) (u : String) : List String :=
  match fetch u with
  | .ok doc => doc.hrefs.map (resolveHref parsed)
  | .requestError => []

/-- One element of results['data'] (lines 81-85 of the source). -/
structure PageData where
  url : String
  depth : Nat
  extracted : List (String × List String)
deriving DecidableEq

/-- The mutable state of the crawl loop: visited (the Python set, as a list
used through membership), to_visit (the FIFO frontier of (url, depth)
pairs), and the three accumulated result fields.  urlsVisited additionally
records the depth in scope at the append site (the source appends only
current_url; the result projects the first components). -/
structure LoopState where
  visited : List String
  queue : List (String × Nat)
  pagesScraped : Nat
  data : List PageData
  urlsVisited : List (String × Nat)
deriving DecidableEq

/-- Result of one evaluation of the while-loop condition plus (when it
holds) one iteration of the loop body: done = the condition fails (empty
frontier or page budget reached); fatal = a non-RequestException exception
escaped the loop body; next = the state after one iteration. -/
inductive StepRes where
  | done : StepRes
  | fatal : StepRes
  | next : LoopState → StepRes
deriving DecidableEq

/-- One iteration of the source's main loop (lines 64-113). -/
def crawlStep (fetch : String → FetchOutcome) (parsed : ParsedURL) (maxD maxP : Int)
    (sels : List (String × String)) (st : LoopState) : StepRes :=
  match st.queue with
  | [] => .done
  | (u, d) :: rest =>
    if (st.pagesScraped : Int) < maxP then
      if u ∈ st.visited then
        .next { st with queue := rest }
      else
        match fetch u with
        | .requestError =>
          .next { visited := u :: st.visited, queue := rest,
                  pagesScraped := st.pagesScraped, data := st.data,
                  urlsVisited := st.urlsVisited ++ [(u, d)] }
        | .ok doc =>
          match extractAll doc sels with
          | none => .fatal
          | some ext =>
            if (d : Int) < maxD then
              .next { visited := u :: st.visited,
                      queue := rest ++ (((doc.hrefs.map (resolveHref parsed)).filter
                        (fun v => decide (v ∉ u :: st.visited))).map (fun v => (v, d + 1))),
                      pagesScraped := st.pagesScraped + 1,
                      data := st.data ++ [⟨u, d, ext⟩],
                      urlsVisited := st.urlsVisited ++ [(u, d)] }
            else
              .next { visited := u :: st.visited, queue := rest,
                      pagesScraped := st.pagesScraped + 1,
                      data := st.data ++ [⟨u, d, ext⟩],
                      urlsVisited := st.urlsVisited ++ [(u, d)] }
    else .done

/-- Termination measure for one frontier entry: an upper bound on the
number of loop iterations the entry can give rise to. -/
def mu (fetch : String → FetchOutcome) (parsed : ParsedURL) (maxD : Int)
    (u : String) (d : Nat) : Nat :=
  if h : (d : Int) < maxD then
    1 + ((pageLinks fetch parsed u).map (fun v => mu fetch parsed maxD v (d + 1))).sum
  else 1
termination_by (maxD - d).toNat
decreasing_by
  simp_wf
  omega

theorem mu_pos (fetch : String → FetchOutcome) (parsed : ParsedURL) (maxD : Int)
    (u : String) (d : Nat) : 1 ≤ mu fetch parsed maxD u d := by
  unfold mu
  split <;> omega

theorem mu_expand (fetch : String → FetchOutcome) (parsed : ParsedURL) (maxD : Int)
    (u : String) (d : Nat) (h : (d : Int) < maxD) :
    mu fetch parsed maxD u d =
      1 + ((pageLinks fetch parsed u).map (fun v => mu fetch parsed maxD v (d + 1))).sum := by
  rw [mu.eq_def]
  simp [h]

/-- Termination measure for a whole frontier. -/
def queueMeasure (fetch : String → FetchOutcome) (parsed : ParsedURL) (maxD : Int)
    (q : List (String × Nat)) : Nat :=
  (q.map (fun e => mu fetch parsed maxD e.1 e.2)).sum

theorem sum_map_filter_le {α : Type} (f : α → Nat) (p : α → Bool) (l : List α) :
    ((l.filter p).map f).sum ≤ (l.map f).sum := by
  induction l with
  | nil => simp
  | cons a t ih =>
    by_cases h : p a = true <;> simp [List.filter_cons, h] <;> omega

theorem crawlStep_next_measure (fetch : String → FetchOutcome) (parsed : ParsedURL)
    (maxD maxP : Int) (sels : List (String × String)) (st st2 : LoopState)
    (h : crawlStep fetch parsed maxD maxP sels st = .next st2) :
    queueMeasure fetch parsed maxD st2.queue < queueMeasure fetch parsed maxD st.queue := by
  unfold crawlStep at h
  cases hq : st.queue with
  | nil => rw [hq] at h; cases h
  | cons e rest =>
    obtain ⟨u, d⟩ := e
    rw [hq] at h
    simp only [] at h
    by_cases hb : (st.pagesScraped : Int) < maxP
    · rw [if_pos hb] at h
      by_cases hv : u ∈ st.visited
      · rw [if_pos hv] at h
        cases h
        have := mu_pos fetch parsed maxD u d
        simp [queueMeasure]
        omega
      · rw [if_neg hv] at h
        cases hf : fetch u with
        | requestError =>
          simp only [hf] at h
          cases h
          have := mu_pos fetch parsed maxD u d
          simp [queueMeasure]
          omega
        | ok doc =>
          simp only [hf] at h
          cases hex : extractAll doc sels with
          | none => simp only [hex] at h; cases h
          | some ext =>
            simp only [hex] at h
            by_cases hd : (d : Int) < maxD
            · rw [if_pos hd] at h
              cases h
              have hmu := mu_expand fetch parsed maxD u d hd
              have hpl : pageLinks fetch parsed u = doc.hrefs.map (resolveHref parsed) := by
                simp [pageLinks, hf]
              rw [hpl] at hmu
              have hle := sum_map_filter_le (fun v => mu fetch parsed maxD v (d + 1))
                (fun v => decide (v ∉ u :: st.visited)) (doc.hrefs.map (resolveHref parsed))
              simp only [queueMeasure, List.map_append, List.sum_append, List.map_map,
                List.map_cons, List.sum_cons, Function.comp_def] at *
              omega
            · rw [if_neg hd] at h
              cases h
              have := mu_pos fetch parsed maxD u d
              simp [queueMeasure]
              omega
    · rw [if_neg hb] at h
      cases h

/-- The source's main loop (lines 64-113), iterated to completion: some =
normal exit of the while loop (returning the final loop state); none = a
non-RequestException exception escaped an iteration (the function's outer
handler then returns an execution_error result). -/
def crawlLoop (fetch : String → FetchOutcome) (parsed : ParsedURL) (maxD maxP : Int)
    (sels : List (String × String)) (st : LoopState) : Option LoopState :=
  match h : crawlStep fetch parsed maxD maxP sels st with
  | .done => some st
  | .fatal => none
  | .next st2 => crawlLoop fetch parsed maxD maxP sels st2
termination_by queueMeasure fetch parsed maxD st.queue
decreasing_by
  exact crawlStep_next_measure fetch parsed maxD maxP sels st st2 h

theorem crawlLoop_done {fetch : String → FetchOutcome} {parsed : ParsedURL}
    {maxD maxP : Int} {sels : List (String × String)} {st : LoopState}
    (h : crawlStep fetch parsed maxD maxP sels st = .done) :
    crawlLoop fetch parsed maxD maxP sels st = some st := by
  rw [crawlLoop.eq_def]
  split <;> simp_all

theorem crawlLoop_fatal {fetch : String → FetchOutcome} {parsed : ParsedURL}
    {maxD maxP : Int} {sels : List (String × String)} {st : LoopState}
    (h : crawlStep fetch parsed maxD maxP sels st = .fatal) :
    crawlLoop fetch parsed maxD maxP sels st = none := by
  rw [crawlLoop.eq_def]
  split <;> simp_all

theorem crawlLoop_next {fetch : String → FetchOutcome} {parsed : ParsedURL}
    {maxD maxP : Int} {sels : List (String × String)} {st : LoopState} (t : LoopState)
    (h : crawlStep fetch parsed maxD maxP sels st = .next t) :
    crawlLoop fetch parsed maxD maxP sels st =
      crawlLoop fetch parsed maxD maxP sels t := by
  conv_lhs => rw [crawlLoop.eq_def]
  split <;> simp_all

/-- The typed task parameters (lines 31-34 of the source).  The source
coerces them from the params dict with defaults url='https://example.com',
depth=1, max_pages=5, selectors={'title': 'title', 'content': 'p'};
depth and max_pages are arbitrary Python ints, hence Int. -/
structure Params where
  url : String
  depth : Int
  max_pages : Int
  selectors : List (String × String)

/-- The fields of the success result dict the claims are about
(results['pages_scraped'], results['data'], results['urls_visited']);
success=True and execution_time are not modelled. -/
structure CrawlResult where
  pagesScraped : Nat
  data : List PageData
  urlsVisited : List String
deriving DecidableEq

/-- Return value of execute: the validation_error dict (lines 41-45), the
execution_error dict produced by the outer exception handler (lines
120-130), or the success results dict. -/
inductive ExecResult where
  | validationError : String → ExecResult
  | executionError : ExecResult
  | ok : CrawlResult → ExecResult
deriving DecidableEq

def isValidationErr : ExecResult → Bool
  | .validationError _ => true
  | _ => false

def isOkRes : ExecResult → Bool
  | .ok _ => true
  | _ => false

/-- Initial loop state (lines 59-61): empty visited set, frontier holding
the seed at depth 0, empty accumulators. -/
def initState (url : String) : LoopState :=
  ⟨[], [(url, 0)], 0, [], []⟩

/-- Final assembly of the results dict from the loop state (the
urls_visited list drops the instrumented depths). -/
def finish (st : LoopState) : CrawlResult :=
  ⟨st.pagesScraped, st.data, st.urlsVisited.map Prod.fst⟩

/-- The execute function of the source: validate the seed URL (lines
39-45; note max_pages is never validated), then run the crawl loop; a
non-RequestException escaping the loop is caught by the function-level
handler, which returns an execution_error result. -/
def execute (fetch : String → FetchOutcome) (p : Params) : ExecResult :=
  if (urlparse p.url).scheme = "" ∨ (urlparse p.url).netloc = "" then
    .validationError ("Invalid URL: " ++ p.url)
  else
    match crawlLoop fetch (urlparse p.url) p.depth p.max_pages p.selectors (initState p.url) with
    | none => .executionError
    | some st => .ok (finish st)

/-- The one-iteration transition relation of the crawl loop, for stating
properties of every reachable loop state. -/
def StepNext (fetch : String → FetchOutcome) (parsed : ParsedURL) (maxD maxP : Int)
    (sels : List (String × String)) (st st2 : LoopState) : Prop :=
  crawlStep fetch parsed maxD maxP sels st = .next st2

/-- Case analysis of a non-terminal loop iteration: the dequeued entry is
either skipped (already visited), or freshly visited with the bookkeeping
the loop body performs. -/
theorem crawlStep_next_char {fetch : String → FetchOutcome} {parsed : ParsedURL}
    {maxD maxP : Int} {sels : List (String × String)} {st st2 : LoopState}
    (h : crawlStep fetch parsed maxD maxP sels st = .next st2) :
    ∃ u d rest, st.queue = (u, d) :: rest ∧ (st.pagesScraped : Int) < maxP ∧
      ((u ∈ st.visited ∧ st2 = { st with queue := rest }) ∨
       (u ∉ st.visited ∧
         st2.visited = u :: st.visited ∧
         st2.urlsVisited = st.urlsVisited ++ [(u, d)] ∧
         ((st2.queue = rest ∧ st2.data = st.data ∧ st2.pagesScraped = st.pagesScraped) ∨
          (∃ ext new, st2.data = st.data ++ [⟨u, d, ext⟩] ∧
            st2.pagesScraped = st.pagesScraped + 1 ∧ st2.queue = rest ++ new ∧
            ((¬ (d : Int) < maxD ∧ new = []) ∨
             ((d : Int) < maxD ∧
               ∃ l : List String, new = l.map (fun v => (v, d + 1)))))))) := by
  unfold crawlStep at h
  cases hq : st.queue with
  | nil => rw [hq] at h; cases h
  | cons e rest =>
    obtain ⟨u, d⟩ := e
    rw [hq] at h
    simp only [] at h
    by_cases hb : (st.pagesScraped : Int) < maxP
    · rw [if_pos hb] at h
      by_cases hv : u ∈ st.visited
      · rw [if_pos hv] at h
        cases h
        exact ⟨u, d, rest, rfl, hb, Or.inl ⟨hv, rfl⟩⟩
      · rw [if_neg hv] at h
        cases hf : fetch u with
        | requestError =>
          simp only [hf] at h
          cases h
          exact ⟨u, d, rest, rfl, hb, Or.inr ⟨hv, rfl, rfl, Or.inl ⟨rfl, rfl, rfl⟩⟩⟩
        | ok doc =>
          simp only [hf] at h
          cases hex : extractAll doc sels with
          | none => simp only [hex] at h; cases h
          | some ext =>
            simp only [hex] at h
            by_cases hd : (d : Int) < maxD
            · rw [if_pos hd] at h
              cases h
              refine ⟨u, d, rest, rfl, hb, Or.inr ⟨hv, rfl, rfl, Or.inr
                ⟨ext, _, rfl, rfl, rfl, Or.inr ⟨hd, _, rfl⟩⟩⟩⟩
            · rw [if_neg hd] at h
              cases h
              exact ⟨u, d, rest, rfl, hb, Or.inr ⟨hv, rfl, rfl, Or.inr
                ⟨ext, [], rfl, rfl, (List.append_nil rest).symm, Or.inl ⟨hd, rfl⟩⟩⟩⟩
    · rw [if_neg hb] at h
      cases h

/-- A fatal iteration can only arise from a successful fetch whose
extraction fails (the selector pipeline raising a non-RequestException). -/
theorem crawlStep_fatal_char {fetch : String → FetchOutcome} {parsed : ParsedURL}
    {maxD maxP : Int} {sels : List (String × String)} {st : LoopState}
    (h : crawlStep fetch parsed maxD maxP sels st = .fatal) :
    ∃ u doc, fetch u = .ok doc ∧ extractAll doc sels = none := by
  unfold crawlStep at h
  cases hq : st.queue with
  | nil => rw [hq] at h; cases h
  | cons e rest =>
    obtain ⟨u, d⟩ := e
    rw [hq] at h
    simp only [] at h
    by_cases hb : (st.pagesScraped : Int) < maxP
    · rw [if_pos hb] at h
      by_cases hv : u ∈ st.visited
      · rw [if_pos hv] at h; cases h
      · rw [if_neg hv] at h
        cases hf : fetch u with
        | requestError => simp only [hf] at h; cases h
        | ok doc =>
          simp only [hf] at h
          cases hex : extractAll doc sels with
          | none => exact ⟨u, doc, hf, hex⟩
          | some ext =>
            simp only [hex] at h
            by_cases hd : (d : Int) < maxD
            · rw [if_pos hd] at h; cases h
            · rw [if_neg hd] at h; cases h
    · rw [if_neg hb] at h; cases h

theorem crawlLoop_inv_aux (fetch : String → FetchOutcome) (parsed : ParsedURL)
    (maxD maxP : Int) (sels : List (String × String)) (P : LoopState → Prop)
    (hstep : ∀ s t, crawlStep fetch parsed maxD maxP sels s = .next t → P s → P t) :
    ∀ n st st', queueMeasure fetch parsed maxD st.queue ≤ n →
      crawlLoop fetch parsed maxD maxP sels st = some st' → P st → P st' := by
  intro n
  induction n with
  | zero =>
    intro st st' hm hrun hP
    cases hs : crawlStep fetch parsed maxD maxP sels st with
    | done => rw [crawlLoop_done hs] at hrun; cases hrun; exact hP
    | fatal => rw [crawlLoop_fatal hs] at hrun; cases hrun
    | next t =>
      have := crawlStep_next_measure fetch parsed maxD maxP sels st t hs
      exact absurd hm (by omega)
  | succ n ih =>
    intro st st' hm hrun hP
    cases hs : crawlStep fetch parsed maxD maxP sels st with
    | done => rw [crawlLoop_done hs] at hrun; cases hrun; exact hP
    | fatal => rw [crawlLoop_fatal hs] at hrun; cases hrun
    | next t =>
      rw [crawlLoop_next t hs] at hrun
      have := crawlStep_next_measure fetch parsed maxD maxP sels st t hs
      exact ih t st' (by omega) hrun (hstep st t hs hP)

/-- If a predicate on loop states is preserved by every iteration, then it
transfers from the initial state to the final state of a completed loop. -/
theorem crawlLoop_inv (fetch : String → FetchOutcome) (parsed : ParsedURL)
    (maxD maxP : Int) (sels : List (String × String)) (P : LoopState → Prop)
    (hstep : ∀ s t, crawlStep fetch parsed maxD maxP sels s = .next t → P s → P t)
    (st st' : LoopState) (hrun : crawlLoop fetch parsed maxD maxP sels st = some st')
    (hP : P st) : P st' :=
  crawlLoop_inv_aux fetch parsed maxD maxP sels P hstep
    (queueMeasure fetch parsed maxD st.queue) st st' le_rfl hrun hP

theorem crawlLoop_ne_none_aux (fetch : String → FetchOutcome) (parsed : ParsedURL)
    (maxD maxP : Int) (sels : List (String × String))
    (hext : ∀ u doc, fetch u = .ok doc → extractAll doc sels ≠ none) :
    ∀ n st, queueMeasure fetch parsed maxD st.queue ≤ n →
      crawlLoop fetch parsed maxD maxP sels st ≠ none := by
  intro n
  induction n with
  | zero =>
    intro st hm
    cases hs : crawlStep fetch parsed maxD maxP sels st with
    | done => rw [crawlLoop_done hs]; simp
    | fatal =>
      obtain ⟨u, doc, hf, hx⟩ := crawlStep_fatal_char hs
      exact absurd hx (hext u doc hf)
    | next t =>
      have := crawlStep_next_measure fetch parsed maxD maxP sels st t hs
      exact absurd hm (by omega)
  | succ n ih =>
    intro st hm
    cases hs : crawlStep fetch parsed maxD maxP sels st with
    | done => rw [crawlLoop_done hs]; simp
    | fatal =>
      obtain ⟨u, doc, hf, hx⟩ := crawlStep_fatal_char hs
      exact absurd hx (hext u doc hf)
    | next t =>
      rw [crawlLoop_next t hs]
      have := crawlStep_next_measure fetch parsed maxD maxP sels st t hs
      exact ih t (by omega)

theorem pairwise_of_const {c : Nat} {new : List (String × Nat)}
    (h : ∀ x ∈ new, x.2 = c) :
    List.Pairwise (fun a b : String × Nat => a.2 ≤ b.2) new := by
  induction new with
  | nil => exact List.Pairwise.nil
  | cons a t ih =>
    refine List.Pairwise.cons (fun b hb => ?_)
      (ih fun x hx => h x (List.mem_cons_of_mem _ hx))
    rw [h a (List.mem_cons_self a t), h b (List.mem_cons_of_mem _ hb)]

/-- The breadth-first invariant tying the frontier and the visit log
together: frontier depths are nondecreasing and spread over at most two
consecutive levels, the logged depths are nondecreasing, and every logged
depth is at most every frontier depth. -/
def BFSOK (q vis : List (String × Nat)) : Prop :=
  List.Pairwise (fun a b => a.2 ≤ b.2) q ∧
  (∀ x ∈ q, ∀ y ∈ q, x.2 ≤ y.2 + 1) ∧
  List.Pairwise (fun a b => a.2 ≤ b.2) vis ∧
  (∀ v ∈ vis, ∀ x ∈ q, v.2 ≤ x.2)

theorem BFSOK_tail {u : String} {d : Nat} {rest vis : List (String × Nat)}
    (h : BFSOK ((u, d) :: rest) vis) : BFSOK rest vis := by
  obtain ⟨h1, h2, h3, h4⟩ := h
  exact ⟨h1.of_cons,
    fun x hx y hy => h2 x (List.mem_cons_of_mem _ hx) y (List.mem_cons_of_mem _ hy),
    h3, fun v hv x hx => h4 v hv x (List.mem_cons_of_mem _ hx)⟩

theorem BFSOK_step {u : String} {d : Nat} {rest new vis : List (String × Nat)}
    (hnew : ∀ x ∈ new, x.2 = d + 1)
    (h : BFSOK ((u, d) :: rest) vis) : BFSOK (rest ++ new) (vis ++ [(u, d)]) := by
  obtain ⟨h1, h2, h3, h4⟩ := h
  have hd_le : ∀ y ∈ rest, d ≤ y.2 := fun y hy => (List.pairwise_cons.mp h1).1 y hy
  have hrest_le : ∀ x ∈ rest, x.2 ≤ d + 1 := fun x hx =>
    h2 x (List.mem_cons_of_mem _ hx) (u, d) (List.mem_cons_self _ _)
  have hvis_le : ∀ v ∈ vis, v.2 ≤ d := fun v hv => h4 v hv (u, d) (List.mem_cons_self _ _)
  refine ⟨?_, ?_, ?_, ?_⟩
  · rw [List.pairwise_append]
    refine ⟨h1.of_cons, pairwise_of_const hnew, ?_⟩
    intro a ha b hb
    have := hnew b hb
    have := hrest_le a ha
    omega
  · intro x hx y hy
    rcases List.mem_append.mp hx with hx1 | hx2
    · rcases List.mem_append.mp hy with hy1 | hy2
      · exact h2 x (List.mem_cons_of_mem _ hx1) y (List.mem_cons_of_mem _ hy1)
      · have := hrest_le x hx1; have := hnew y hy2; omega
    · rcases List.mem_append.mp hy with hy1 | hy2
      · have := hnew x hx2; have := hd_le y hy1; omega
      · have := hnew x hx2; have := hnew y hy2; omega
  · rw [List.pairwise_append]
    refine ⟨h3, List.pairwise_singleton _ _, ?_⟩
    intro a ha b hb
    rw [List.mem_singleton] at hb
    subst hb
    exact hvis_le a ha
  · intro v hv x hx
    rcases List.mem_append.mp hv with hv1 | hv2
    · rcases List.mem_append.mp hx with hx1 | hx2
      · exact h4 v hv1 x (List.mem_cons_of_mem _ hx1)
      · have := hvis_le v hv1; have := hnew x hx2; omega
    · rw [List.mem_singleton] at hv2
      subst hv2
      rcases List.mem_append.mp hx with hx1 | hx2
      · exact hd_le x hx1
      · have := hnew x hx2; omega

theorem BFSOK_preserved {fetch : String → FetchOutcome} {parsed : ParsedURL}
    {maxD maxP : Int} {sels : List (String × String)} {st st2 : LoopState}
    (h : crawlStep fetch parsed maxD maxP sels st = .next st2)
    (hP : BFSOK st.queue st.urlsVisited) : BFSOK st2.queue st2.urlsVisited := by
  obtain ⟨u, d, rest, hq, hb, hcase⟩ := crawlStep_next_char h
  rw [hq] at hP
  rcases hcase with ⟨hv, rfl⟩ | ⟨hv, hvis, hurls, hrest⟩
  · exact BFSOK_tail hP
  · rcases hrest with ⟨hq2, hdata, hpg⟩ | ⟨ext, new, hdata, hpg, hq2, hnew⟩
    · rw [hq2, hurls]
      have h0 : BFSOK (rest ++ ([] : List (String × Nat))) (st.urlsVisited ++ [(u, d)]) :=
        BFSOK_step (by simp) hP
      simpa using h0
    · rw [hq2, hurls]
      rcases hnew with ⟨hnd, rfl⟩ | ⟨hd, l, rfl⟩
      · exact BFSOK_step (by simp) hP
      · refine BFSOK_step ?_ hP
        intro x hx
        simp only [List.mem_map] at hx
        obtain ⟨v, _, rfl⟩ := hx
        rfl

/-- Oracle: every fetch fails with a RequestException. -/
def fetchFail : String → FetchOutcome := fun _ => .requestError

/-- A page with no links whose selectors all succeed (matching nothing). -/
def leafDoc : Doc := ⟨fun _ => some [], []⟩

/-- Oracle: every fetch succeeds with a link-free page. -/
def fetchLeaf : String → FetchOutcome := fun _ => .ok leafDoc

/-- A page carrying the same root-relative link twice. -/
def dupDoc : Doc := ⟨fun _ => some [], ["/a", "/a"]⟩

/-- Oracle: the seed page links to /a twice; everything else fails. -/
def fetchDup : String → FetchOutcome := fun u =>
  if u = "http://h.test/" then .ok dupDoc else .requestError

/-- Oracle: the seed http://a.test/ links (absolutely) to a page on host
b.test, which carries the root-relative link /y; all other fetches
succeed with link-free pages. -/
def fetchCross : String → FetchOutcome := fun u =>
  if u = "http://a.test/" then .ok ⟨fun _ => some [], ["http://b.test/x"]⟩
  else if u = "http://b.test/x" then .ok ⟨fun _ => some [], ["/y"]⟩
  else .ok leafDoc

/-- A page on which every selector application raises. -/
def fatalDoc : Doc := ⟨fun _ => none, []⟩

/-- Oracle: the seed page is fine and links to /a and /b, but the
selector raises on every child page. -/
def fetchFatal : String → FetchOutcome := fun u =>
  if u = "http://h.test/" then .ok ⟨fun _ => some [], ["/a", "/b"]⟩ else .ok fatalDoc

def pFail : Params := ⟨"http://h.test/", 1, 5, []⟩
def pZero : Params := ⟨"http://h.test/", 1, 0, []⟩
def pNeg : Params := ⟨"http://h.test/", 1, -1, []⟩
def pD0 : Params := ⟨"http://h.test/", 0, 0, []⟩
def pDneg : Params := ⟨"http://h.test/", -1, 5, []⟩
def pCross : Params := ⟨"http://a.test/", 2, 10, []⟩
def pFatal : Params := ⟨"http://h.test/", 1, 5, [("t", "x")]⟩
def pSeed9 : Params := ⟨"http://h.test/", 0, 5, []⟩

def failFinal : LoopState :=
  ⟨["http://h.test/"], [], 0, [], [("http://h.test/", 0)]⟩
def failRes : CrawlResult := ⟨0, [], ["http://h.test/"]⟩
def leafFinal : LoopState :=
  ⟨["http://h.test/"], [], 1, [⟨"http://h.test/", 0, []⟩], [("http://h.test/", 0)]⟩
def leafRes : CrawlResult := ⟨1, [⟨"http://h.test/", 0, []⟩], ["http://h.test/"]⟩
def crossFinal : LoopState :=
  ⟨["http://a.test/y", "http://b.test/x", "http://a.test/"], [], 3,
   [⟨"http://a.test/", 0, []⟩, ⟨"http://b.test/x", 1, []⟩, ⟨"http://a.test/y", 2, []⟩],
   [("http://a.test/", 0), ("http://b.test/x", 1), ("http://a.test/y", 2)]⟩
def crossRes : CrawlResult :=
  ⟨3, [⟨"http://a.test/", 0, []⟩, ⟨"http://b.test/x", 1, []⟩, ⟨"http://a.test/y", 2, []⟩],
   ["http://a.test/", "http://b.test/x", "http://a.test/y"]⟩

theorem failRun : crawlLoop fetchFail (urlparse "http://h.test/") 1 5 []
    (initState "http://h.test/") = some failFinal := by
  rw [crawlLoop_next failFinal (by decide), crawlLoop_done (by decide)]

theorem exec_fail : execute fetchFail pFail = .ok failRes := by
  simp only [execute, pFail]
  rw [if_neg (by decide)]
  rw [failRun]
  rfl

theorem leafRun : crawlLoop fetchLeaf (urlparse "http://h.test/") 1 5 []
    (initState "http://h.test/") = some leafFinal := by
  rw [crawlLoop_next leafFinal (by decide), crawlLoop_done (by decide)]

theorem exec_leaf : execute fetchLeaf pFail = .ok leafRes := by
  simp only [execute, pFail]
  rw [if_neg (by decide)]
  rw [leafRun]
  rfl

theorem leafRun9 : crawlLoop fetchLeaf (urlparse "http://h.test/") 0 5 []
    (initState "http://h.test/") = some leafFinal := by
  rw [crawlLoop_next leafFinal (by decide), crawlLoop_done (by decide)]

theorem exec_leaf9 : execute fetchLeaf pSeed9 = .ok leafRes := by
  simp only [execute, pSeed9]
  rw [if_neg (by decide)]
  rw [leafRun9]
  rfl

theorem leafRunDneg : crawlLoop fetchLeaf (urlparse "http://h.test/") (-1) 5 []
    (initState "http://h.test/") = some leafFinal := by
  rw [crawlLoop_next leafFinal (by decide), crawlLoop_done (by decide)]

theorem exec_leafDneg : execute fetchLeaf pDneg = .ok leafRes := by
  simp only [execute, pDneg]
  rw [if_neg (by decide)]
  rw [leafRunDneg]
  rfl

theorem crossRun : crawlLoop fetchCross (urlparse "http://a.test/") 2 10 []
    (initState "http://a.test/") = some crossFinal := by
  rw [crawlLoop_next ⟨["http://a.test/"], [("http://b.test/x", 1)], 1,
        [⟨"http://a.test/", 0, []⟩], [("http://a.test/", 0)]⟩ (by decide)]
  rw [crawlLoop_next ⟨["http://b.test/x", "http://a.test/"], [("http://a.test/y", 2)], 2,
        [⟨"http://a.test/", 0, []⟩, ⟨"http://b.test/x", 1, []⟩],
        [("http://a.test/", 0), ("http://b.test/x", 1)]⟩ (by decide)]
  rw [crawlLoop_next crossFinal (by decide), crawlLoop_done (by decide)]

theorem exec_cross : execute fetchCross pCross = .ok crossRes := by
  simp only [execute, pCross]
  rw [if_neg (by decide)]
  rw [crossRun]
  rfl

theorem fatalRun : crawlLoop fetchFatal (urlparse "http://h.test/") 1 5 [("t", "x")]
    (initState "http://h.test/") = none := by
  rw [crawlLoop_next ⟨["http://h.test/"], [("http://h.test/a", 1), ("http://h.test/b", 1)], 1,
        [⟨"http://h.test/", 0, [("t", [])]⟩], [("http://h.test/", 0)]⟩ (by decide)]
  rw [crawlLoop_fatal (by decide)]

theorem exec_fatal : execute fetchFatal pFatal = .executionError := by
  simp only [execute, pFatal]
  rw [if_neg (by decide)]
  rw [fatalRun]

/-- C1, counterexample: the claim says a discovered URL is inserted into
the visited set at the moment it is enqueued, so no URL is ever enqueued
twice.  In the code the insertion happens at dequeue time (line 70), and
the enqueue guard (line 108) does not add to the set, so a page carrying
the same link twice enqueues it twice: after processing the seed page of
fetchDup the frontier holds http://h.test/a twice and the visited set does
not contain it. -/
theorem C1_counterexample :
    crawlStep fetchDup (urlparse "http://h.test/") 1 5 [] (initState "http://h.test/") =
      .next ⟨["http://h.test/"], [("http://h.test/a", 1), ("http://h.test/a", 1)], 1,
             [⟨"http://h.test/", 0, []⟩], [("http://h.test/", 0)]⟩ ∧
    ¬ ((([("http://h.test/a", 1), ("http://h.test/a", 1)] : List (String × Nat)).map
        Prod.fst).Nodup) ∧
    "http://h.test/a" ∉ (["http://h.test/"] : List String) :=
  ⟨by decide, by decide, by decide⟩

/-- C1, amended: a URL is inserted into the VisitedSet at the moment it is
dequeued, not when it is enqueued; the same URL may sit in the frontier
several times, but a dequeued URL that is already in the VisitedSet is
skipped (dropped without fetching or logging), so each URL is processed at
most once.  Formally: when the head of the frontier is already visited the
iteration only drops it; when it is fresh, any non-terminal iteration adds
it to the visited set and appends it to the visit log. -/
theorem C1_amended (fetch : String → FetchOutcome) (parsed : ParsedURL) (maxD maxP : Int)
    (sels : List (String × String)) (st : LoopState) (u : String) (d : Nat)
    (rest : List (String × Nat))
    (hq : st.queue = (u, d) :: rest) (hb : (st.pagesScraped : Int) < maxP) :
    (u ∈ st.visited →
      crawlStep fetch parsed maxD maxP sels st = .next { st with queue := rest }) ∧
    (u ∉ st.visited → ∀ t, crawlStep fetch parsed maxD maxP sels st = .next t →
      t.visited = u :: st.visited ∧ t.urlsVisited = st.urlsVisited ++ [(u, d)]) := by
  constructor
  · intro hv
    unfold crawlStep
    rw [hq]
    simp only []
    rw [if_pos hb, if_pos hv]
  · intro hv t ht
    obtain ⟨u2, d2, rest2, hq2, hb2, hcase⟩ := crawlStep_next_char ht
    rw [hq] at hq2
    injection hq2 with hhead htail
    injection hhead with hu hd2
    subst hu
    subst hd2
    rcases hcase with ⟨hv2, _⟩ | ⟨_, hvis, hurls, _⟩
    · exact absurd hv2 hv
    · exact ⟨hvis, hurls⟩

theorem C1_amended_witness :
    crawlStep fetchFail (urlparse "http://h.test/") 1 5 []
        ⟨["http://h.test/"], [("http://h.test/", 0)], 0, [], []⟩ =
      .next ⟨["http://h.test/"], [], 0, [], []⟩ :=
  (C1_amended fetchFail (urlparse "http://h.test/") 1 5 []
      ⟨["http://h.test/"], [("http://h.test/", 0)], 0, [], []⟩ "http://h.test/" 0 [] rfl
      (by decide)).1 (by decide)

/-- C2, counterexample: the claim says a relative href is resolved against
the base URL of the fetched page itself.  The code resolves every relative
href against the urlparse of the seed URL (parsed_url is computed once at
line 39 and used at line 102).  With seed http://a.test/ linking to
http://b.test/x, whose page carries the root-relative href /y, the crawl
visits http://a.test/y — the seed's base — and never http://b.test/y,
which the claim requires. -/
theorem C2_counterexample :
    execute fetchCross pCross = .ok crossRes ∧
    "http://b.test/y" ∉ crossRes.urlsVisited ∧
    "http://a.test/y" ∈ crossRes.urlsVisited :=
  ⟨exec_cross, by decide, by decide⟩

/-- C2, amended: a href without an absolute http/https scheme is resolved
against the base URL (scheme + host) of the request's SEED URL, not of the
fetched page: root-relative hrefs are prefixed with seedScheme://seedHost
and document-relative hrefs with seedScheme://seedHost/ .  Formally, the
links enqueued by a successful non-terminal iteration below the depth
limit are exactly the page's hrefs resolved that way (minus those already
visited), at depth d+1. -/
theorem C2_amended (fetch : String → FetchOutcome) (seedURL : String) (maxD maxP : Int)
    (sels : List (String × String)) (st t : LoopState) (u : String) (d : Nat)
    (rest : List (String × Nat)) (doc : Doc)
    (hq : st.queue = (u, d) :: rest) (hv : u ∉ st.visited) (hf : fetch u = .ok doc)
    (hd : (d : Int) < maxD)
    (hs : crawlStep fetch (urlparse seedURL) maxD maxP sels st = .next t) :
    t.queue = rest ++ (((doc.hrefs.map (fun h0 =>
        if strStartsWith h0 "http://" || strStartsWith h0 "https://" then h0
        else if strStartsWith h0 "/" then
          (urlparse seedURL).scheme ++ "://" ++ (urlparse seedURL).netloc ++ h0
        else
          (urlparse seedURL).scheme ++ "://" ++ (urlparse seedURL).netloc ++ "/" ++ h0)).filter
        (fun v => decide (v ∉ u :: st.visited))).map (fun v => (v, d + 1))) := by
  unfold crawlStep at hs
  rw [hq] at hs
  simp only [] at hs
  by_cases hb : (st.pagesScraped : Int) < maxP
  · rw [if_pos hb, if_neg hv] at hs
    simp only [hf] at hs
    cases hex : extractAll doc sels with
    | none => simp only [hex] at hs; cases hs
    | some ext =>
      simp only [hex] at hs
      rw [if_pos hd] at hs
      cases hs
      rfl
  · rw [if_neg hb] at hs
    cases hs

theorem C2_amended_witness :
    ([("http://h.test/a", 1), ("http://h.test/a", 1)] : List (String × Nat)) =
      [] ++ (((dupDoc.hrefs.map (fun h0 =>
        if strStartsWith h0 "http://" || strStartsWith h0 "https://" then h0
        else if strStartsWith h0 "/" then
          (urlparse "http://h.test/").scheme ++ "://" ++ (urlparse "http://h.test/").netloc ++ h0
        else
          (urlparse "http://h.test/").scheme ++ "://" ++ (urlparse "http://h.test/").netloc
            ++ "/" ++ h0)).filter
        (fun v => decide (v ∉ ["http://h.test/"]))).map (fun v => (v, 0 + 1))) :=
  C2_amended fetchDup "http://h.test/" 1 5 [] (initState "http://h.test/")
    ⟨["http://h.test/"], [("http://h.test/a", 1), ("http://h.test/a", 1)], 1,
     [⟨"http://h.test/", 0, []⟩], [("http://h.test/", 0)]⟩
    "http://h.test/" 0 [] dupDoc rfl (by decide) rfl (by decide) (by decide)

/-- C3, counterexample: the claim says maxPages ≤ 0 is rejected with a
ValidationError before the crawl loop starts.  The code never validates
max_pages (only the URL, lines 39-45); with max_pages = 0 and a valid seed
URL the loop condition is false at once and execute returns a SUCCESS
result with zero pages, not a validation error. -/
theorem C3_counterexample :
    execute fetchFail pZero = .ok ⟨0, [], []⟩ ∧
    isValidationErr (execute fetchFail pZero) = false := by
  have h : execute fetchFail pZero = .ok ⟨0, [], []⟩ := by
    simp only [execute, pZero]
    rw [if_neg (by decide), crawlLoop_done (by decide)]
    rfl
  exact ⟨h, by rw [h]; rfl⟩

/-- C3, amended: for maxPages ≤ 0 (with a seed URL that passes the URL
validation) the crawl loop never runs — no page is fetched, all result
fields are empty — but no ValidationError is produced: the result is a
success result with pagesScraped = 0, data = [], urlsVisited = []. -/
theorem C3_amended (fetch : String → FetchOutcome) (p : Params)
    (h1 : ¬ ((urlparse p.url).scheme = "" ∨ (urlparse p.url).netloc = ""))
    (hmp : p.max_pages ≤ 0) :
    execute fetch p = .ok ⟨0, [], []⟩ := by
  have hstep : crawlStep fetch (urlparse p.url) p.depth p.max_pages p.selectors
      (initState p.url) = .done := by
    unfold crawlStep initState
    simp only []
    rw [if_neg (by omega)]
  simp only [execute]
  rw [if_neg h1, crawlLoop_done hstep]
  rfl

theorem C3_amended_witness : execute fetchFail pZero = .ok ⟨0, [], []⟩ :=
  C3_amended fetchFail pZero (by decide) (by decide)

/-- Inverting a successful execute: validation passed, the loop completed
normally, and the result is the final loop state's projection. -/
theorem execute_ok_inv (fetch : String → FetchOutcome) (p : Params) (r : CrawlResult)
    (hok : execute fetch p = .ok r) :
    ∃ st', crawlLoop fetch (urlparse p.url) p.depth p.max_pages p.selectors (initState p.url)
        = some st' ∧ r = finish st' := by
  unfold execute at hok
  by_cases hval : (urlparse p.url).scheme = "" ∨ (urlparse p.url).netloc = ""
  · rw [if_pos hval] at hok
    cases hok
  · rw [if_neg hval] at hok
    cases hrun : crawlLoop fetch (urlparse p.url) p.depth p.max_pages p.selectors
        (initState p.url) with
    | none => rw [hrun] at hok; cases hok
    | some st' =>
      rw [hrun] at hok
      simp only [] at hok
      cases hok
      exact ⟨st', rfl, rfl⟩

/-- C4, counterexample: the claim says that once validation passes no
error of any kind propagates out of the crawl loop and the crawl only
stops on an empty frontier or the page budget.  The loop body catches only
requests.exceptions.RequestException (line 111); a selector raising inside
extraction escapes the loop and is caught by the function-level handler,
which discards all partial results.  With fetchFatal/pFatal the seed page
succeeds and enqueues two children, then the first child's selector raises:
execute returns the execution_error result even though the frontier still
held http://h.test/b and only 1 of 5 budgeted pages was scraped. -/
theorem C4_counterexample :
    execute fetchFatal pFatal = .executionError ∧
    isOkRes (execute fetchFatal pFatal) = false := by
  refine ⟨exec_fatal, ?_⟩
  rw [exec_fatal]
  rfl

/-- C4, amended: only fetch-level failures (RequestException: transport
error, non-2xx, timeout) are isolated inside the loop body; an extraction
failure (a selector raising a non-RequestException) propagates out of the
loop and aborts the whole crawl, surfacing as an execution_error result.
Provided no selector application raises on any successfully fetched page,
no error propagates and the crawl always returns a success result
(stopping only on an empty frontier or the page budget). -/
theorem C4_amended (fetch : String → FetchOutcome) (p : Params)
    (h1 : ¬ ((urlparse p.url).scheme = "" ∨ (urlparse p.url).netloc = ""))
    (hext : ∀ u doc, fetch u = .ok doc → extractAll doc p.selectors ≠ none) :
    isOkRes (execute fetch p) = true := by
  simp only [execute]
  rw [if_neg h1]
  cases hrun : crawlLoop fetch (urlparse p.url) p.depth p.max_pages p.selectors
      (initState p.url) with
  | none =>
    exact absurd hrun (crawlLoop_ne_none_aux fetch (urlparse p.url) p.depth p.max_pages
      p.selectors hext (queueMeasure fetch (urlparse p.url) p.depth (initState p.url).queue)
      (initState p.url) le_rfl)
  | some st' => rfl

theorem C4_amended_witness : isOkRes (execute fetchLeaf pFail) = true :=
  C4_amended fetchLeaf pFail (by decide) (fun u doc h => by
    injection h with h2
    subst h2
    decide)

/-- C5, counterexample: the claim asserts pagesScraped ≤ maxPages for
every crawl that passes validation; the code only validates the URL, so
max_pages = -1 passes validation, the loop body never runs, and the
returned pagesScraped = 0 exceeds maxPages = -1. -/
theorem C5_counterexample :
    execute fetchFail pNeg = .ok ⟨0, [], []⟩ ∧
    ¬ ((((0 : Nat) : Int)) ≤ pNeg.max_pages) := by
  constructor
  · simp only [execute, pNeg]
    rw [if_neg (by decide), crawlLoop_done (by decide)]
    rfl
  · decide

/-- C5, amended: for every crawl that passes validation and returns a
result, pagesScraped equals the length of data unconditionally, and
pagesScraped ≤ maxPages holds whenever maxPages ≥ 0 (the code never
rejects a negative maxPages, for which the bound fails with
pagesScraped = 0). -/
theorem C5_amended (fetch : String → FetchOutcome) (p : Params) (r : CrawlResult)
    (hok : execute fetch p = .ok r) :
    r.pagesScraped = r.data.length ∧
      (0 ≤ p.max_pages → (r.pagesScraped : Int) ≤ p.max_pages) := by
  obtain ⟨st', hrun, rfl⟩ := execute_ok_inv fetch p r hok
  have key : (fun st => st.pagesScraped = st.data.length ∧
      (0 ≤ p.max_pages → (st.pagesScraped : Int) ≤ p.max_pages)) st' := by
    refine crawlLoop_inv fetch (urlparse p.url) p.depth p.max_pages p.selectors
      (fun st => st.pagesScraped = st.data.length ∧
        (0 ≤ p.max_pages → (st.pagesScraped : Int) ≤ p.max_pages))
      ?_ (initState p.url) st' hrun ⟨rfl, fun h0 => by simpa [initState] using h0⟩
    intro s t hs hP
    obtain ⟨u, d, rest, hq, hb, hcase⟩ := crawlStep_next_char hs
    rcases hcase with ⟨hv, rfl⟩ | ⟨hv, hvis, hurls, hrest⟩
    · exact hP
    · rcases hrest with ⟨hq2, hdata, hpg⟩ | ⟨ext, new, hdata, hpg, hq2, hnew⟩
      · rw [hdata, hpg]
        exact hP
      · rw [hdata, hpg]
        constructor
        · simp [hP.1]
        · intro h0
          omega
  exact key

theorem C5_amended_witness :
    failRes.pagesScraped = failRes.data.length ∧
      (0 ≤ pFail.max_pages → (failRes.pagesScraped : Int) ≤ pFail.max_pages) :=
  C5_amended fetchFail pFail failRes exec_fail

/-- C6: in every result returned by a validated crawl the urls_visited
list is duplicate-free: a URL is appended only when it is absent from the
visited set and is added to the set in the same iteration, so no URL is
dequeued and processed twice. -/
theorem C6_nodup (fetch : String → FetchOutcome) (p : Params) (r : CrawlResult)
    (hok : execute fetch p = .ok r) : r.urlsVisited.Nodup := by
  obtain ⟨st', hrun, rfl⟩ := execute_ok_inv fetch p r hok
  have key : (fun st => (st.urlsVisited.map Prod.fst).Nodup ∧
      ∀ v ∈ st.urlsVisited, v.1 ∈ st.visited) st' := by
    refine crawlLoop_inv fetch (urlparse p.url) p.depth p.max_pages p.selectors
      (fun st => (st.urlsVisited.map Prod.fst).Nodup ∧
        ∀ v ∈ st.urlsVisited, v.1 ∈ st.visited)
      ?_ (initState p.url) st' hrun ⟨by simp [initState], by simp [initState]⟩
    intro s t hs hP
    obtain ⟨u, d, rest, hq, hb, hcase⟩ := crawlStep_next_char hs
    rcases hcase with ⟨hv, rfl⟩ | ⟨hv, hvis, hurls, hrest⟩
    · exact hP
    · constructor
      · rw [hurls]
        rw [List.map_append]
        rw [List.nodup_append]
        refine ⟨hP.1, by simp, ?_⟩
        intro a ha hb
        simp only [List.map_cons, List.map_nil, List.mem_singleton] at hb
        subst hb
        simp only [List.mem_map] at ha
        obtain ⟨v, hv2, hfst⟩ := ha
        apply hv
        rw [← hfst]
        exact hP.2 v hv2
      · intro v hv2
        rw [hurls] at hv2
        rcases List.mem_append.mp hv2 with h1 | h2
        · rw [hvis]
          exact List.mem_cons_of_mem _ (hP.2 v h1)
        · rw [List.mem_singleton] at h2
          subst h2
          rw [hvis]
          exact List.mem_cons_self _ _
  exact key.1

theorem C6_nodup_witness : failRes.urlsVisited.Nodup :=
  C6_nodup fetchFail pFail failRes exec_fail

/-- C7: BFS ordering of the visit log.  The instrumented urls_visited list
pairs each logged URL with the depth of the frontier entry being processed
when it was appended (the depth at which the crawl discovered and
processed it).  For any two entries, if entry i was processed at a
strictly shallower depth than entry j, then i comes before j: the FIFO
frontier dequeues all depth-d URLs before any depth-(d+1) URL. -/
theorem C7_bfs_order (fetch : String → FetchOutcome) (parsed : ParsedURL) (maxD maxP : Int)
    (sels : List (String × String)) (url : String) (st' : LoopState)
    (h : crawlLoop fetch parsed maxD maxP sels (initState url) = some st') :
    ∀ i j : Fin st'.urlsVisited.length,
      (st'.urlsVisited.get i).2 < (st'.urlsVisited.get j).2 → (i : Nat) < (j : Nat) := by
  have key : (fun st => BFSOK st.queue st.urlsVisited) st' := by
    refine crawlLoop_inv fetch parsed maxD maxP sels (fun st => BFSOK st.queue st.urlsVisited)
      (fun s t hs hP => BFSOK_preserved hs hP) (initState url) st' h ?_
    refine ⟨List.pairwise_singleton _ _, ?_, List.Pairwise.nil, ?_⟩
    · intro x hx y hy
      simp only [initState, List.mem_singleton] at hx hy
      subst hx
      subst hy
      omega
    · intro v hv x hx
      simp only [initState, List.not_mem_nil] at hv
  intro i j hij
  by_contra hji
  push_neg at hji
  rcases eq_or_lt_of_le hji with heq | hlt
  · have hIJ : i = j := Fin.ext heq.symm
    subst hIJ
    exact absurd hij (lt_irrefl _)
  · have hR := List.pairwise_iff_get.mp key.2.2.1 j i hlt
    omega

theorem C7_bfs_order_witness : (0 : Nat) < 1 :=
  C7_bfs_order fetchCross (urlparse "http://a.test/") 2 10 [] "http://a.test/" crossFinal
    crossRun ⟨0, by decide⟩ ⟨1, by decide⟩ (by decide)

/-- C8: a dequeued fresh page whose fetch fails with a RequestException is
appended to urls_visited but contributes nothing to data or pagesScraped,
and the crawl continues with the remaining frontier: the iteration yields
exactly the bookkeeping state (visited + url, same data, same page count,
log + (url, depth)), the loop's value from here equals its value on that
state, and in any final state of the continued loop the URL is logged and
never appears in data. -/
theorem C8_fetch_failure (fetch : String → FetchOutcome) (parsed : ParsedURL)
    (maxD maxP : Int) (sels : List (String × String)) (st : LoopState) (u : String)
    (d : Nat) (rest : List (String × Nat))
    (hq : st.queue = (u, d) :: rest) (hv : u ∉ st.visited)
    (hb : (st.pagesScraped : Int) < maxP) (hf : fetch u = .requestError)
    (hnd : u ∉ st.data.map PageData.url) :
    crawlStep fetch parsed maxD maxP sels st =
      .next ⟨u :: st.visited, rest, st.pagesScraped, st.data, st.urlsVisited ++ [(u, d)]⟩ ∧
    crawlLoop fetch parsed maxD maxP sels st =
      crawlLoop fetch parsed maxD maxP sels
        ⟨u :: st.visited, rest, st.pagesScraped, st.data, st.urlsVisited ++ [(u, d)]⟩ ∧
    ∀ st', crawlLoop fetch parsed maxD maxP sels st = some st' →
      (u, d) ∈ st'.urlsVisited ∧ u ∉ st'.data.map PageData.url := by
  have hstep : crawlStep fetch parsed maxD maxP sels st =
      .next ⟨u :: st.visited, rest, st.pagesScraped, st.data, st.urlsVisited ++ [(u, d)]⟩ := by
    unfold crawlStep
    rw [hq]
    simp only []
    rw [if_pos hb, if_neg hv]
    simp only [hf]
  refine ⟨hstep, crawlLoop_next _ hstep, ?_⟩
  intro st' hrun
  rw [crawlLoop_next _ hstep] at hrun
  have key : (fun s2 => (u, d) ∈ s2.urlsVisited ∧ u ∈ s2.visited ∧
      u ∉ s2.data.map PageData.url) st' := by
    refine crawlLoop_inv fetch parsed maxD maxP sels
      (fun s2 => (u, d) ∈ s2.urlsVisited ∧ u ∈ s2.visited ∧ u ∉ s2.data.map PageData.url)
      ?_ _ st' hrun
      ⟨List.mem_append_right _ (List.mem_singleton.mpr rfl), List.mem_cons_self _ _, hnd⟩
    intro s t hs hP
    obtain ⟨u2, d2, rest2, hq2, hb2, hcase⟩ := crawlStep_next_char hs
    rcases hcase with ⟨hv2, rfl⟩ | ⟨hv2, hvis, hurls, hrest⟩
    · exact hP
    · refine ⟨by rw [hurls]; exact List.mem_append_left _ hP.1,
        by rw [hvis]; exact List.mem_cons_of_mem _ hP.2.1, ?_⟩
      rcases hrest with ⟨hq3, hdata, hpg⟩ | ⟨ext, new, hdata, hpg, hq3, hnew⟩
      · rw [hdata]
        exact hP.2.2
      · rw [hdata, List.map_append]
        intro hmem
        rcases List.mem_append.mp hmem with h1 | h2
        · exact hP.2.2 h1
        · simp only [List.map_cons, List.map_nil, List.mem_singleton] at h2
          subst h2
          exact hv2 hP.2.1
  exact ⟨key.1, key.2.2⟩

theorem C8_fetch_failure_witness :
    ("http://h.test/", 0) ∈ failFinal.urlsVisited ∧
      "http://h.test/" ∉ failFinal.data.map PageData.url :=
  (C8_fetch_failure fetchFail (urlparse "http://h.test/") 1 5 [] (initState "http://h.test/")
      "http://h.test/" 0 [] rfl (by decide) (by decide) rfl (by decide)).2.2 failFinal failRun

/-- C9, counterexample: the claim says every validated crawl with
maxDepth = 0 has urlsVisited = [seedURL].  The code does not validate
max_pages, so a crawl with a valid URL, depth 0 and max_pages 0 passes
validation, and its loop exits before the seed is ever dequeued:
urlsVisited is empty, not [seedURL]. -/
theorem C9_counterexample :
    execute fetchLeaf pD0 = .ok ⟨0, [], []⟩ ∧
    (⟨0, [], []⟩ : CrawlResult).urlsVisited ≠ [pD0.url] := by
  constructor
  · simp only [execute, pD0]
    rw [if_neg (by decide), crawlLoop_done (by decide)]
    rfl
  · decide

/-- C9, amended: for every crawl that passes validation with maxDepth = 0
AND maxPages ≥ 1, whenever a result is returned (the crawl is not aborted
by an escaping extraction error) its urlsVisited is exactly [seedURL],
whether the seed fetch succeeds or fails: no link is ever enqueued. -/
theorem C9_amended (fetch : String → FetchOutcome) (p : Params) (r : CrawlResult)
    (hd : p.depth = 0) (hmp : 1 ≤ p.max_pages) (hok : execute fetch p = .ok r) :
    r.urlsVisited = [p.url] := by
  obtain ⟨st', hrun, rfl⟩ := execute_ok_inv fetch p r hok
  have hb : ((0 : Nat) : Int) < p.max_pages := by omega
  cases hf : fetch p.url with
  | requestError =>
    have hs1 : crawlStep fetch (urlparse p.url) p.depth p.max_pages p.selectors
        (initState p.url) = .next ⟨[p.url], [], 0, [], [(p.url, 0)]⟩ := by
      unfold crawlStep initState
      simp only [List.not_mem_nil, if_false, hf, hb, if_true]
      rfl
    have hs2 : crawlStep fetch (urlparse p.url) p.depth p.max_pages p.selectors
        ⟨[p.url], [], 0, [], [(p.url, 0)]⟩ = .done := rfl
    rw [crawlLoop_next _ hs1, crawlLoop_done hs2] at hrun
    cases hrun
    rfl
  | ok doc =>
    cases hex : extractAll doc p.selectors with
    | none =>
      have hsF : crawlStep fetch (urlparse p.url) p.depth p.max_pages p.selectors
          (initState p.url) = .fatal := by
        unfold crawlStep initState
        simp only [List.not_mem_nil, if_false, hf, hex, hb, if_true]
      rw [crawlLoop_fatal hsF] at hrun
      cases hrun
    | some ext =>
      have hnd : ¬ (((0 : Nat) : Int) < p.depth) := by omega
      have hs1 : crawlStep fetch (urlparse p.url) p.depth p.max_pages p.selectors
          (initState p.url) = .next ⟨[p.url], [], 1, [⟨p.url, 0, ext⟩], [(p.url, 0)]⟩ := by
        unfold crawlStep initState
        simp only [List.not_mem_nil, if_false, hf, hex, hb, if_true, hnd]
        rfl
      have hs2 : crawlStep fetch (urlparse p.url) p.depth p.max_pages p.selectors
          ⟨[p.url], [], 1, [⟨p.url, 0, ext⟩], [(p.url, 0)]⟩ = .done := rfl
      rw [crawlLoop_next _ hs1, crawlLoop_done hs2] at hrun
      cases hrun
      rfl

theorem C9_amended_witness : leafRes.urlsVisited = [pSeed9.url] :=
  C9_amended fetchLeaf pSeed9 leafRes rfl (by decide) exec_leaf9

/-- C10, counterexample: the claim says every frontier entry and every
returned PageResult has depth ≤ maxDepth for every validated crawl.  The
code does not validate depth, so depth = -1 passes validation; the seed is
enqueued and scraped at depth 0 > -1. -/
theorem C10_counterexample :
    execute fetchLeaf pDneg = .ok leafRes ∧
    ¬ (((⟨"http://h.test/", 0, []⟩ : PageData).depth : Int) ≤ pDneg.depth) :=
  ⟨exec_leafDneg, by decide⟩

/-- C10, amended: provided maxDepth ≥ 0 (which the code never checks),
every frontier entry of every reachable loop state has depth ≤ maxDepth —
children are enqueued only when the parent's depth is strictly below
maxDepth — and hence every PageResult in the returned data has
depth ≤ maxDepth. -/
theorem C10_amended (fetch : String → FetchOutcome) (p : Params) (hd : 0 ≤ p.depth) :
    (∀ st2, Relation.ReflTransGen
        (StepNext fetch (urlparse p.url) p.depth p.max_pages p.selectors)
        (initState p.url) st2 → ∀ q ∈ st2.queue, (q.2 : Int) ≤ p.depth) ∧
    (∀ r, execute fetch p = .ok r → ∀ pd ∈ r.data, (pd.depth : Int) ≤ p.depth) := by
  have hstep : ∀ s t, crawlStep fetch (urlparse p.url) p.depth p.max_pages p.selectors s
        = .next t →
      ((∀ q ∈ s.queue, (q.2 : Int) ≤ p.depth) ∧ (∀ pd ∈ s.data, (pd.depth : Int) ≤ p.depth)) →
      ((∀ q ∈ t.queue, (q.2 : Int) ≤ p.depth) ∧
        (∀ pd ∈ t.data, (pd.depth : Int) ≤ p.depth)) := by
    intro s t hs hP
    obtain ⟨u, d, rest, hq, hb, hcase⟩ := crawlStep_next_char hs
    have hdq : ((d : Nat) : Int) ≤ p.depth := hP.1 (u, d) (by rw [hq]; exact List.mem_cons_self _ _)
    rcases hcase with ⟨hv, rfl⟩ | ⟨hv, hvis, hurls, hrest⟩
    · exact ⟨fun q hq2 => hP.1 q (by rw [hq]; exact List.mem_cons_of_mem _ hq2), hP.2⟩
    · rcases hrest with ⟨hq2, hdata, hpg⟩ | ⟨ext, new, hdata, hpg, hq2, hnew⟩
      · constructor
        · intro q hq3
          rw [hq2] at hq3
          exact hP.1 q (by rw [hq]; exact List.mem_cons_of_mem _ hq3)
        · rw [hdata]
          exact hP.2
      · constructor
        · intro q hq3
          rw [hq2] at hq3
          rcases List.mem_append.mp hq3 with h1 | h2
          · exact hP.1 q (by rw [hq]; exact List.mem_cons_of_mem _ h1)
          · rcases hnew with ⟨hnlt, rfl⟩ | ⟨hdlt, l, rfl⟩
            · cases h2
            · simp only [List.mem_map] at h2
              obtain ⟨v, hv3, rfl⟩ := h2
              push_cast
              omega
        · intro pd hpd
          rw [hdata] at hpd
          rcases List.mem_append.mp hpd with h1 | h2
          · exact hP.2 pd h1
          · rw [List.mem_singleton] at h2
            subst h2
            exact hdq
  have hinit : (∀ q ∈ (initState p.url).queue, (q.2 : Int) ≤ p.depth) ∧
      (∀ pd ∈ (initState p.url).data, (pd.depth : Int) ≤ p.depth) := by
    constructor
    · intro q hq2
      simp only [initState, List.mem_singleton] at hq2
      subst hq2
      simpa using hd
    · intro pd hpd
      simp only [initState, List.not_mem_nil] at hpd
  constructor
  · intro st2 hreach
    have hfull : (∀ q ∈ st2.queue, (q.2 : Int) ≤ p.depth) ∧
        (∀ pd ∈ st2.data, (pd.depth : Int) ≤ p.depth) := by
      induction hreach with
      | refl => exact hinit
      | tail hab hbc ih => exact hstep _ _ hbc ih
    exact hfull.1
  · intro r hok pd hpd
    obtain ⟨st', hrun, rfl⟩ := execute_ok_inv fetch p r hok
    have key := crawlLoop_inv fetch (urlparse p.url) p.depth p.max_pages p.selectors
      (fun s2 => (∀ q ∈ s2.queue, (q.2 : Int) ≤ p.depth) ∧
        (∀ pd2 ∈ s2.data, (pd2.depth : Int) ≤ p.depth))
      hstep (initState p.url) st' hrun hinit
    exact key.2 pd hpd

theorem C10_amended_witness :
    ((⟨"http://h.test/", 0, []⟩ : PageData).depth : Int) ≤ pFail.depth :=
  (C10_amended fetchLeaf pFail (by decide)).2 leafRes exec_leaf
    ⟨"http://h.test/", 0, []⟩ (by decide)
